import Mathlib

/-!
Shallow embedding of the translation engine of `main.py` (class `GameTranslator`)
and proofs about its chunking, term-selection, adaptive-budget, persistence and
driver-loop behaviour.

Modelling conventions: Python strings are lists of characters; Python dicts are
ordered association lists (insertion order preserved, keys unique); Python float
arithmetic on the target-length budget is modelled by exact rationals; the opaque
backend call (`self.client.messages.create`) is an oracle, indexed by the number
of calls made so far, that either raises (`Except.error`) or returns a message
content; `json.loads` of the response text is an abstract `parse` function
returning `none` exactly when the library would raise `json.JSONDecodeError`.
-/

namespace WarmSnow

/-- Python strings, modelled as lists of characters. -/
abbrev Str := List Char

/-- Python dict key-membership test (`k in d`). -/
def memKey (m : List (Str × Str)) (k : Str) : Bool :=
  m.any (fun p => decide (p.1 = k))

/-- one key-value step of Python `dict.update`: overwrite an existing key in
place, otherwise append at the end. -/
def updOne (m : List (Str × Str)) (kv : Str × Str) : List (Str × Str) :=
  if memKey m kv.1 then m.map (fun p => if p.1 = kv.1 then kv else p) else m ++ [kv]

/-- Python `d.update(new)`, applied key by key in the order of `new`. -/
def updAll (m new : List (Str × Str)) : List (Str × Str) :=
  new.foldl updOne m

/-- Python `s in l` on strings: literal substring occurrence. -/
def subOf (s l : Str) : Bool := decide (List.IsInfix s l)

/-- helper `is_subprocess` of `prepare_request` (main.py lines 88-93): whether
`short` is a proper substring of some term in `term_list`. -/
def is_subprocess (short : Str) (term_list : List Str) : Bool :=
  term_list.any (fun long => decide (short ≠ long) && subOf short long)

/-- the test `any(term in text for text in texts.values())` (main.py line 102). -/
def occursB (texts : List Str) (t : Str) : Bool :=
  texts.any (fun s => subOf t s)

/-- selection loop of `prepare_request` (main.py lines 99-105): walking the
length-sorted glossary, accept a term when it occurs in some chunk text and is
not a proper substring of an already-accepted term. -/
def selGo (texts : List Str) : List (Str × Str) → List (Str × Str) → List (Str × Str)
  | [], acc => acc
  | (t, v) :: rest, acc =>
    if occursB texts t then
      if is_subprocess t (acc.map Prod.fst) then selGo texts rest acc
      else selGo texts rest (acc ++ [(t, v)])
    else selGo texts rest acc

/-- stable insertion keeping key lengths descending (earlier elements win ties),
the behaviour of Python `sorted(keys, key=len, reverse=True)` on glossary
entries. -/
def insLen (x : Str × Str) : List (Str × Str) → List (Str × Str)
  | [] => [x]
  | y :: ys => if x.1.length < y.1.length then y :: insLen x ys else x :: y :: ys

/-- stable sort of glossary entries by key length, descending (main.py line 96). -/
def sortLenDesc : List (Str × Str) → List (Str × Str)
  | [] => []
  | x :: xs => insLen x (sortLenDesc xs)

/-- the `relevant_terms` dictionary computed by `prepare_request`
(main.py lines 96-105). -/
def relevant_terms (glossary : List (Str × Str)) (texts : List Str) : List (Str × Str) :=
  selGo texts (sortLenDesc glossary) []

/-- the serialized request payload (`request_data`, main.py line 107), modelled
structurally rather than as a JSON string. -/
structure RequestData where
  terms_dictionary : List (Str × Str)
  texts : List (Str × Str)
deriving DecidableEq

/-- in-memory state of a `GameTranslator` instance, plus the persisted
`failed_translations.json` record and a backend-call counter. -/
structure GState where
  glossary : List (Str × Str)
  translated : List (Str × Str)
  target_length : ℚ
  nCalls : ℕ
  failedFile : Option (List (Str × Str))
deriving DecidableEq

/-- `prepare_request` (main.py lines 86-113): pairs the payload with the chunk. -/
def prepare_request (glossary : List (Str × Str)) (texts : List (Str × Str)) :
    RequestData × List (Str × Str) :=
  ({ terms_dictionary := relevant_terms glossary (texts.map Prod.snd),
     texts := texts }, texts)

/-- `adjust_chunk_size` (main.py lines 152-158); Python `min` and `max` are
written out as comparisons to keep the definition kernel-computable. -/
def adjust_chunk_size (success : Bool) (t : ℚ) : ℚ :=
  if success then (if t * 1.2 ≤ 2400 then t * 1.2 else 2400)
  else (if 1200 ≤ t * 0.8 then t * 0.8 else 1200)

/-- accumulation loop of `create_next_chunk` (main.py lines 165-174): skip
already-translated ids, stop (break) as soon as the next text would push the
running total over the budget. -/
def nextChunkGo (translated : List (Str × Str)) (target : ℚ) :
    List (Str × Str) → List (Str × Str) → ℕ → List (Str × Str)
  | [], acc, _ => acc
  | (id_, text) :: rest, acc, total =>
    if memKey translated id_ then nextChunkGo translated target rest acc total
    else if target < ((total + text.length : ℕ) : ℚ) then acc
    else nextChunkGo translated target rest (acc ++ [(id_, text)]) (total + text.length)

/-- `create_next_chunk` (main.py lines 160-178): `none` models the
`return None, None` branch for an empty accumulated chunk. -/
def create_next_chunk (st : GState) (texts : List (Str × Str)) :
    Option (RequestData × List (Str × Str)) :=
  let c := nextChunkGo st.translated st.target_length texts [] 0
  if c = [] then none else some (prepare_request st.glossary c)

/-- structured data parsed from a response text (`json.loads` output): the three
optional fields `process_response` looks at. -/
structure ParsedResponse where
  result : Option (List (Str × Str))
  new_terms : Option (List (Str × Str))
  comment : Option Str
deriving DecidableEq

/-- the `response_text` extraction of `process_response` (main.py lines 117-120):
first part of a list content, or the string content itself. -/
def response_text_of (resp : List Str ⊕ Str) : Str :=
  match resp with
  | Sum.inl parts =>
    match parts with
    | [] => []
    | p :: _ => p
  | Sum.inr s => s

/-- `process_response` (main.py lines 115-150). An unparseable response text
(`parse` returns `none`, the `json.JSONDecodeError` case) is caught inside the
function: it only logs and leaves all state unchanged. An empty response text
likewise returns early. On a parsed result the `result` and `new_terms` fields
are merged into the translated map and the glossary (each then saved). -/
def process_response (parse : Str → Option ParsedResponse) (resp : List Str ⊕ Str)
    (st : GState) : GState :=
  let rt := response_text_of resp
  if rt = [] then st
  else
    match parse rt with
    | none => st
    | some r =>
      let st1 :=
        match r.result with
        | some res => { st with translated := updAll st.translated res }
        | none => st
      match r.new_terms with
      | some ts => if 0 < ts.length then { st1 with glossary := updAll st1.glossary ts } else st1
      | none => st1

/-- backend oracle: outcome of the `n`-th call to `self.client.messages.create`,
either an exception or a message content. -/
abbrev Oracle := ℕ → Except Unit (List Str ⊕ Str)

/-- inner retry loop of `translate_all` (main.py lines 195-238), with `r` the
number of retries still allowed (entered with `r = 3 = max_retries`). A
successful call runs `process_response` then `adjust_chunk_size(True)` and
breaks (flag `true`); an exception runs `adjust_chunk_size(False)`, and when the
retry counter reaches the maximum the original chunk is written to
`failed_translations.json` (flag `false`). -/
def retryGo (parse : Str → Option ParsedResponse) (oracle : Oracle)
    (chunk : List (Str × Str)) : ℕ → GState → GState × Bool
  | 0, st => (st, false)
  | r + 1, st =>
    match oracle st.nCalls with
    | Except.ok resp =>
      let st1 : GState := { st with nCalls := st.nCalls + 1 }
      let st2 := process_response parse resp st1
      ({ st2 with target_length := adjust_chunk_size true st2.target_length }, true)
    | Except.error _ =>
      let st1 : GState := { st with nCalls := st.nCalls + 1 }
      let st2 : GState := { st1 with target_length := adjust_chunk_size false st1.target_length }
      if r = 0 then ({ st2 with failedFile := some chunk }, false)
      else retryGo parse oracle chunk r st2

/-- outer `while remaining_texts` loop of `translate_all` (main.py lines
187-238), with explicit fuel (the source loop need not terminate). The
remaining map is recomputed from the full input only on the success path
(main.py line 218); after a permanently failed chunk it is left as it was. -/
def translateLoop (parse : Str → Option ParsedResponse) (oracle : Oracle)
    (texts : List (Str × Str)) : ℕ → List (Str × Str) → GState → GState
  | 0, _, st => st
  | fuel + 1, remaining, st =>
    if remaining = [] then st
    else
      match create_next_chunk st remaining with
      | none => st
      | some (_, chunk) =>
        let sr := retryGo parse oracle chunk 3 st
        let remaining' :=
          if sr.2 then texts.filter (fun p => ! memKey sr.1.translated p.1) else remaining
        translateLoop parse oracle texts fuel remaining' sr.1

/-- `translate_all` (main.py lines 180-241): build the initial remaining map and
run the driver loop; the source returns `self.translated`, here the whole final
state is returned. -/
def translate_all (parse : Str → Option ParsedResponse) (oracle : Oracle) (fuel : ℕ)
    (texts : List (Str × Str)) (st : GState) : GState :=
  translateLoop parse oracle texts fuel (texts.filter (fun p => ! memKey st.translated p.1)) st

/-- first fragment of `texts` whose id is not yet translated: the first fragment
`create_next_chunk` actually considers against the budget. -/
def firstUntrans (translated : List (Str × Str)) : List (Str × Str) → Option (Str × Str)
  | [] => none
  | p :: rest => if memKey translated p.1 then firstUntrans translated rest else some p

/-- file-system view for the `save_json` model: the persisted target file, the
`.tmp` artifact, and a count of logged errors. -/
structure FS where
  target : Option (List (Str × Str))
  temp : Option (List (Str × Str))
  logs : ℕ
deriving DecidableEq

/-- failure injection point for `save_json`: an exception while writing the
temporary file, an exception during the atomic replace, or no failure. -/
inductive SaveFail
  | writeFail
  | replaceFail
  | noFail
deriving DecidableEq

/-- `save_json` (main.py lines 47-59) under failure injection. `leftover` is
whatever partial content an interrupted temp-file write left behind. The
`except` handler logs the error and unlinks the temp file when it exists; the
function itself never raises. -/
def save_json (data : List (Str × Str)) (fail : SaveFail)
    (leftover : Option (List (Str × Str))) (fs : FS) : FS :=
  match fail with
  | SaveFail.writeFail =>
    let fs1 : FS := { fs with temp := leftover }
    { fs1 with temp := none, logs := fs1.logs + 1 }
  | SaveFail.replaceFail =>
    let fs1 : FS := { fs with temp := some data }
    { fs1 with temp := none, logs := fs1.logs + 1 }
  | SaveFail.noFail =>
    let fs1 : FS := { fs with temp := some data }
    { fs1 with target := some data, temp := none }

/-- initial in-memory state of a fresh `GameTranslator` with no saved data:
empty glossary and translations, target length 1000 (main.py lines 23-25). -/
def exSt : GState :=
  { glossary := [], translated := [], target_length := 1000, nCalls := 0, failedFile := none }

/-- one-fragment input mapping used in concrete runs. -/
def exTexts : List (Str × Str) := [(['a'], ['x'])]

/-- backend oracle that raises on every call. -/
def oracleErr : Oracle := fun _ => Except.error ()

/-- backend oracle that returns the (unparseable) one-character text "o" on
every call. -/
def oracleOk : Oracle := fun _ => Except.ok (Sum.inr ['o'])

/-- parse function for which every response text is malformed
(`json.loads` always raises). -/
def parseNone : Str → Option ParsedResponse := fun _ => none

/-- a 1001-character text, longer than the initial 1000-character budget. -/
def longText : Str := List.replicate 1001 'x'

/-- state like `exSt` but with the budget at 2000, where the success and failure
adjustments are distinguishable. -/
def st2000 : GState := { exSt with target_length := 2000 }

/-- glossary of the term-suppression example: 刀法 ↦ 검법, 快刀法 ↦ 쾌검법. -/
def glossEx : List (Str × Str) :=
  [(['刀', '法'], ['검', '법']), (['快', '刀', '法'], ['쾌', '검', '법'])]

/-- a chunk text containing 快刀法. -/
def textEx : Str := ['用', '快', '刀', '法']

/-- state in which the one fragment of `exTexts` is already translated. -/
def stTr : GState := { exSt with translated := [(['a'], ['y'])] }

/-- file-system state holding one previously persisted mapping and no temp
artifact. -/
def fs0 : FS := { target := some [(['k'], ['v'])], temp := none, logs := 0 }

/-- total character length of a chunk: `sum(len(text))` over its fragments. -/
def sumLen (c : List (Str × Str)) : ℕ := (c.map (fun p => p.2.length)).sum

/-- no selected term is a proper substring of another selected term. -/
def NoContain (R : List (Str × Str)) : Prop :=
  ∀ p ∈ R, ∀ q ∈ R, p.1 ≠ q.1 → ¬ List.IsInfix p.1 q.1

lemma sumLen_append_single (acc : List (Str × Str)) (p : Str × Str) :
    sumLen (acc ++ [p]) = sumLen acc + p.2.length := by
  simp [sumLen]

lemma nextChunkGo_untrans (translated : List (Str × Str)) (target : ℚ) :
    ∀ (l acc : List (Str × Str)) (total : ℕ),
      (∀ p ∈ acc, memKey translated p.1 = false) →
      ∀ p ∈ nextChunkGo translated target l acc total, memKey translated p.1 = false := by
  intro l
  induction l with
  | nil =>
    intro acc total hacc p hp
    simp only [nextChunkGo] at hp
    exact hacc p hp
  | cons q rest ih =>
    intro acc total hacc p hp
    obtain ⟨id_, text⟩ := q
    simp only [nextChunkGo] at hp
    by_cases h1 : memKey translated id_ = true
    · simp only [h1, if_true] at hp
      exact ih acc total hacc p hp
    · simp only [h1, if_false, Bool.false_eq_true] at hp
      by_cases h2 : target < ((total + text.length : ℕ) : ℚ)
      · simp only [h2, if_true] at hp
        exact hacc p hp
      · simp only [h2, if_false] at hp
        refine ih _ _ ?_ p hp
        intro p' hp'
        rcases List.mem_append.1 hp' with h | h
        · exact hacc p' h
        · simp only [List.mem_singleton] at h
          subst h
          simpa using h1

lemma nextChunkGo_ne_nil (translated : List (Str × Str)) (target : ℚ) :
    ∀ (l acc : List (Str × Str)) (total : ℕ),
      acc ≠ [] → nextChunkGo translated target l acc total ≠ [] := by
  intro l
  induction l with
  | nil =>
    intro acc total hacc
    simpa only [nextChunkGo] using hacc
  | cons q rest ih =>
    intro acc total hacc
    obtain ⟨id_, text⟩ := q
    simp only [nextChunkGo]
    by_cases h1 : memKey translated id_ = true
    · simp only [h1, if_true]
      exact ih acc total hacc
    · simp only [h1, if_false, Bool.false_eq_true]
      by_cases h2 : target < ((total + text.length : ℕ) : ℚ)
      · simpa only [h2, if_true] using hacc
      · simp only [h2, if_false]
        exact ih _ _ (by simp)

lemma nextChunkGo_sum (translated : List (Str × Str)) (target : ℚ) :
    ∀ (l acc : List (Str × Str)) (total : ℕ),
      total = sumLen acc →
      (acc ≠ [] → (sumLen acc : ℚ) ≤ target) →
      nextChunkGo translated target l acc total ≠ [] →
      (sumLen (nextChunkGo translated target l acc total) : ℚ) ≤ target := by
  intro l
  induction l with
  | nil =>
    intro acc total htot hacc hne
    simp only [nextChunkGo] at hne ⊢
    exact hacc hne
  | cons q rest ih =>
    intro acc total htot hacc hne
    obtain ⟨id_, text⟩ := q
    simp only [nextChunkGo] at hne ⊢
    by_cases h1 : memKey translated id_ = true
    · simp only [h1, if_true] at hne ⊢
      exact ih acc total htot hacc hne
    · simp only [h1, if_false, Bool.false_eq_true] at hne ⊢
      by_cases h2 : target < ((total + text.length : ℕ) : ℚ)
      · simp only [h2, if_true] at hne ⊢
        exact hacc hne
      · simp only [h2, if_false] at hne ⊢
        refine ih _ _ ?_ ?_ hne
        · rw [sumLen_append_single, htot]
        · intro _
          rw [sumLen_append_single, ← htot]
          exact le_of_not_lt h2

lemma create_next_chunk_eq (st : GState) (texts : List (Str × Str))
    (req : RequestData) (c : List (Str × Str))
    (h : create_next_chunk st texts = some (req, c)) :
    c = nextChunkGo st.translated st.target_length texts [] 0 ∧
      nextChunkGo st.translated st.target_length texts [] 0 ≠ [] := by
  unfold create_next_chunk at h
  by_cases hnil : nextChunkGo st.translated st.target_length texts [] 0 = []
  · simp [hnil] at h
  · simp only [hnil, if_false] at h
    have h2 := congrArg Prod.snd (Option.some.inj h)
    simp only [prepare_request] at h2
    exact ⟨h2.symm, hnil⟩

/-- C9: no chunk produced by `create_next_chunk` contains a fragment id that is
already present in the translated map at the time the chunk is built. -/
theorem chunker_never_reincludes_translated (st : GState) (texts : List (Str × Str))
    (req : RequestData) (c : List (Str × Str))
    (h : create_next_chunk st texts = some (req, c)) :
    ∀ p ∈ c, memKey st.translated p.1 = false := by
  obtain ⟨hc, -⟩ := create_next_chunk_eq st texts req c h
  intro p hp
  rw [hc] at hp
  exact nextChunkGo_untrans st.translated st.target_length texts [] 0 (by simp) p hp

/-- C9 witness: on a fresh state and a one-fragment input, the fragment of the
produced chunk is untranslated. -/
theorem chunker_never_reincludes_translated_witness :
    memKey exSt.translated (['a'] : Str) = false :=
  chunker_never_reincludes_translated exSt exTexts
    { terms_dictionary := [], texts := exTexts } exTexts (by decide)
    (['a'], ['x']) (by decide)

/-- C10: every chunk returned by `create_next_chunk` has total source-text
length at most the current target-length budget, so in particular no fragment
whose length alone exceeds the budget is ever included in a chunk. -/
theorem chunk_total_length_le_budget (st : GState) (texts : List (Str × Str))
    (req : RequestData) (c : List (Str × Str))
    (h : create_next_chunk st texts = some (req, c)) :
    (sumLen c : ℚ) ≤ st.target_length ∧
      ∀ p ∈ c, (p.2.length : ℚ) ≤ st.target_length := by
  obtain ⟨hc, hne⟩ := create_next_chunk_eq st texts req c h
  have hsum : (sumLen c : ℚ) ≤ st.target_length := by
    rw [hc]
    exact nextChunkGo_sum st.translated st.target_length texts [] 0 (by simp [sumLen])
      (by intro hx; exact absurd rfl hx) hne
  refine ⟨hsum, fun p hp => ?_⟩
  have hmem : p.2.length ∈ c.map (fun p => p.2.length) := List.mem_map_of_mem _ hp
  have hle : p.2.length ≤ sumLen c :=
    List.single_le_sum (fun x _ => Nat.zero_le x) _ hmem
  exact le_trans (by exact_mod_cast Nat.cast_le.mpr hle) hsum

/-- C10 witness: the one-fragment chunk built from the fresh state satisfies the
budget bound. -/
theorem chunk_total_length_le_budget_witness :
    (sumLen exTexts : ℚ) ≤ exSt.target_length ∧
      ∀ p ∈ exTexts, (p.2.length : ℚ) ≤ exSt.target_length :=
  chunk_total_length_le_budget exSt exTexts
    { terms_dictionary := [], texts := exTexts } exTexts (by decide)

lemma nextChunkGo_first_fit (translated : List (Str × Str)) (target : ℚ) :
    ∀ (texts : List (Str × Str)) (p : Str × Str),
      firstUntrans translated texts = some p →
      (((p.2.length : ℚ) ≤ target → nextChunkGo translated target texts [] 0 ≠ []) ∧
        (target < (p.2.length : ℚ) → nextChunkGo translated target texts [] 0 = [])) := by
  intro texts
  induction texts with
  | nil => intro p hp; simp [firstUntrans] at hp
  | cons q rest ih =>
    intro p hp
    obtain ⟨id_, text⟩ := q
    simp only [firstUntrans] at hp
    by_cases h1 : memKey translated id_ = true
    · simp only [h1, if_true] at hp
      simp only [nextChunkGo, h1, if_true]
      exact ih p hp
    · simp only [h1, if_false, Bool.false_eq_true, Option.some.injEq] at hp
      subst hp
      simp only [nextChunkGo, h1, if_false, Bool.false_eq_true]
      constructor
      · intro hle
        have h2 : ¬ target < ((0 + text.length : ℕ) : ℚ) := by
          simp only [Nat.zero_add]
          exact not_lt.mpr hle
        simp only [h2, if_false]
        exact nextChunkGo_ne_nil translated target rest _ _ (by simp)
      · intro hgt
        have h2 : target < ((0 + text.length : ℕ) : ℚ) := by
          simpa only [Nat.zero_add] using hgt
        simp only [h2, if_true]

/-- C1 (amended): for a non-empty remaining mapping, `create_next_chunk` returns
a non-empty chunk when the first untranslated fragment fits within the budget,
but returns no chunk at all (`None, None`) when that fragment's length alone
exceeds the budget — the oversized fragment is not placed alone in a chunk. -/
theorem chunker_first_fragment_dichotomy (st : GState) (texts : List (Str × Str))
    (p : Str × Str) (h : firstUntrans st.translated texts = some p) :
    (((p.2.length : ℚ) ≤ st.target_length →
        ∃ req c, create_next_chunk st texts = some (req, c) ∧ c ≠ []) ∧
      (st.target_length < (p.2.length : ℚ) → create_next_chunk st texts = none)) := by
  obtain ⟨hfit, hover⟩ := nextChunkGo_first_fit st.translated st.target_length texts p h
  constructor
  · intro hle
    have hne := hfit hle
    refine ⟨(prepare_request st.glossary
        (nextChunkGo st.translated st.target_length texts [] 0)).1,
      nextChunkGo st.translated st.target_length texts [] 0, ?_, hne⟩
    unfold create_next_chunk
    simp only [hne, if_false]
    simp [prepare_request]
  · intro hgt
    unfold create_next_chunk
    simp only [hover hgt, if_true]

/-- C1 witness: with the initial 1000-character budget and a single 1-character
fragment, the amended dichotomy produces a non-empty chunk. -/
theorem chunker_first_fragment_dichotomy_witness :
    ∃ req c, create_next_chunk exSt exTexts = some (req, c) ∧ c ≠ [] :=
  (chunker_first_fragment_dichotomy exSt exTexts (['a'], ['x']) (by decide)).1 (by decide)

set_option maxRecDepth 8000 in
/-- C1 counterexample: a fresh state (budget 1000) with a single untranslated
1001-character fragment is a non-empty remaining mapping, yet
`create_next_chunk` returns no chunk at all instead of placing the oversized
fragment alone in a chunk. -/
theorem chunker_oversized_counterexample :
    memKey exSt.translated ['a'] = false ∧
      create_next_chunk exSt [(['a'], longText)] = none := by
  constructor
  · decide
  · decide

lemma adjust_chunk_size_mem (b : Bool) (t : ℚ) (h1 : 1200 ≤ t) (h2 : t ≤ 2400) :
    1200 ≤ adjust_chunk_size b t ∧ adjust_chunk_size b t ≤ 2400 := by
  cases b <;>
    simp only [adjust_chunk_size, if_true, if_false, Bool.false_eq_true] <;>
    constructor <;> split_ifs <;> linarith

/-- C4: once the target-length budget lies in the operating interval
[1200, 2400], any sequence of success/failure adjustments made by
`adjust_chunk_size` keeps it inside that interval. -/
theorem budget_stays_in_operating_range (events : List Bool) (t : ℚ)
    (h1 : 1200 ≤ t) (h2 : t ≤ 2400) :
    1200 ≤ events.foldl (fun x b => adjust_chunk_size b x) t ∧
      events.foldl (fun x b => adjust_chunk_size b x) t ≤ 2400 := by
  induction events generalizing t with
  | nil => exact ⟨h1, h2⟩
  | cons b rest ih =>
    simp only [List.foldl_cons]
    obtain ⟨ha, hb⟩ := adjust_chunk_size_mem b t h1 h2
    exact ih _ ha hb

/-- C4 witness: starting from 1200, the event sequence success-then-failure
stays inside [1200, 2400]. -/
theorem budget_stays_in_operating_range_witness :
    1200 ≤ ([true, false] : List Bool).foldl (fun x b => adjust_chunk_size b x) 1200 ∧
      ([true, false] : List Bool).foldl (fun x b => adjust_chunk_size b x) 1200 ≤ 2400 :=
  budget_stays_in_operating_range [true, false] 1200 (le_refl 1200) (by decide)

/-- C8: when every input fragment id is already translated, `translate_all`
makes zero backend calls and leaves the entire state (translated map, glossary,
call counter, budget, failure record) unchanged, returning the translated map
as it was. -/
theorem driver_noop_when_all_translated (parse : Str → Option ParsedResponse)
    (oracle : Oracle) (fuel : ℕ) (texts : List (Str × Str)) (st : GState)
    (h : ∀ p ∈ texts, memKey st.translated p.1 = true) :
    translate_all parse oracle fuel texts st = st := by
  unfold translate_all
  have hrem : texts.filter (fun p => ! memKey st.translated p.1) = [] := by
    rw [List.filter_eq_nil_iff]
    intro p hp
    simp [h p hp]
  rw [hrem]
  cases fuel with
  | zero => simp [translateLoop]
  | succ f => simp [translateLoop]

/-- C8 witness: a second run over the already-completed one-fragment set is a
no-op. -/
theorem driver_noop_when_all_translated_witness :
    translate_all parseNone oracleErr 5 exTexts stTr = stTr :=
  driver_noop_when_all_translated parseNone oracleErr 5 exTexts stTr (by decide)

lemma process_response_parse_none (parse : Str → Option ParsedResponse)
    (resp : List Str ⊕ Str) (st : GState)
    (hparse : parse (response_text_of resp) = none) :
    process_response parse resp st = st := by
  unfold process_response
  by_cases h : response_text_of resp = []
  · simp [h]
  · simp [h, hparse]

lemma retryGo_all_errors (parse : Str → Option ParsedResponse)
    (oracle : Oracle) (chunk : List (Str × Str)) (st : GState)
    (h : ∀ n, oracle n = Except.error ()) :
    retryGo parse oracle chunk 3 st =
      ({ st with
          nCalls := st.nCalls + 3
          target_length := adjust_chunk_size false (adjust_chunk_size false
            (adjust_chunk_size false st.target_length))
          failedFile := some chunk }, false) := by
  have hn : st.nCalls + 1 + 1 + 1 = st.nCalls + 3 := by omega
  simp [retryGo, h, hn]

/-- C7: if every backend call raises, the retry loop makes exactly 3 attempts,
persists the chunk's original mapping verbatim to the failed-translations
record (overwriting any prior content), and adds none of the chunk's ids to
the translated map. -/
theorem all_calls_raise_persists_failed_chunk (parse : Str → Option ParsedResponse)
    (oracle : Oracle) (chunk : List (Str × Str)) (st : GState)
    (h : ∀ n, oracle n = Except.error ()) :
    retryGo parse oracle chunk 3 st =
      ({ st with
          nCalls := st.nCalls + 3
          target_length := adjust_chunk_size false (adjust_chunk_size false
            (adjust_chunk_size false st.target_length))
          failedFile := some chunk }, false) ∧
      (retryGo parse oracle chunk 3 st).1.translated = st.translated := by
  have heq := retryGo_all_errors parse oracle chunk st h
  exact ⟨heq, by rw [heq]⟩

/-- C7 witness: concrete run of the retry loop on the one-fragment chunk with
an always-raising backend. -/
theorem all_calls_raise_persists_failed_chunk_witness :
    retryGo parseNone oracleErr exTexts 3 exSt =
      ({ exSt with
          nCalls := exSt.nCalls + 3
          target_length := adjust_chunk_size false (adjust_chunk_size false
            (adjust_chunk_size false exSt.target_length))
          failedFile := some exTexts }, false) ∧
      (retryGo parseNone oracleErr exTexts 3 exSt).1.translated = exSt.translated :=
  all_calls_raise_persists_failed_chunk parseNone oracleErr exTexts exSt (fun _ => rfl)

/-- C2 (amended): a backend response whose text fails to parse as JSON is
caught inside `process_response`, which leaves all state unchanged; the driver
then takes the SUCCESS path — `adjust_chunk_size(True)` runs, the post-success
pause is reached, and the retry counter is not incremented (the attempt loop
exits after this single attempt instead of retrying). -/
theorem parse_failure_takes_success_path (parse : Str → Option ParsedResponse)
    (oracle : Oracle) (chunk : List (Str × Str)) (r : ℕ) (st : GState)
    (resp : List Str ⊕ Str)
    (hresp : oracle st.nCalls = Except.ok resp)
    (hparse : parse (response_text_of resp) = none) :
    process_response parse resp st = st ∧
      retryGo parse oracle chunk (r + 1) st =
        ({ st with
            nCalls := st.nCalls + 1
            target_length := adjust_chunk_size true st.target_length }, true) := by
  refine ⟨process_response_parse_none parse resp st hparse, ?_⟩
  simp only [retryGo, hresp]
  rw [process_response_parse_none parse resp _ hparse]

/-- C2 counterexample: with budget 2000 and a backend returning the
unparseable text "o", the attempt takes the SUCCESS branch: the retry loop
exits with the success flag after one call and the budget is adjusted by the
success rule to 2400 (the failure rule would give 1600), contradicting the
claim that a parse failure goes to RETRY and never triggers
`adjust_chunk_size(True)`. -/
theorem parse_failure_retry_counterexample :
    parseNone (response_text_of (Sum.inr ['o'])) = none ∧
      retryGo parseNone oracleOk exTexts 3 st2000 =
        ({ st2000 with
            nCalls := 1
            target_length := adjust_chunk_size true st2000.target_length }, true) ∧
      adjust_chunk_size true st2000.target_length = 2400 ∧
      adjust_chunk_size false st2000.target_length = 1600 := by
  refine ⟨rfl, ?_, ?_, ?_⟩
  · rfl
  · norm_num [adjust_chunk_size, st2000, exSt]
  · norm_num [adjust_chunk_size, st2000, exSt]

/-- C2 amendment witness: concrete instance of the amended statement at the
state with budget 2000 and the unparseable response "o". -/
theorem parse_failure_takes_success_path_witness :
    process_response parseNone (Sum.inr ['o']) st2000 = st2000 ∧
      retryGo parseNone oracleOk exTexts 3 st2000 =
        ({ st2000 with
            nCalls := st2000.nCalls + 1
            target_length := adjust_chunk_size true st2000.target_length }, true) :=
  parse_failure_takes_success_path parseNone oracleOk exTexts 2 st2000
    (Sum.inr ['o']) rfl rfl

lemma st1_eq : translate_all parseNone oracleErr 1 exTexts exSt =
    { glossary := [], translated := [], target_length := 1200, nCalls := 3,
      failedFile := some exTexts } := by
  have h3 := retryGo_all_errors parseNone oracleErr exTexts exSt (fun _ => rfl)
  norm_num [exSt, exTexts, adjust_chunk_size] at h3
  norm_num [translate_all, translateLoop, create_next_chunk, nextChunkGo, memKey,
    exTexts, exSt, prepare_request, relevant_terms, sortLenDesc, selGo, h3]

lemma st2_eq : translate_all parseNone oracleErr 2 exTexts exSt =
    { glossary := [], translated := [], target_length := 1200, nCalls := 6,
      failedFile := some exTexts } := by
  have h3 := retryGo_all_errors parseNone oracleErr exTexts exSt (fun _ => rfl)
  norm_num [exSt, exTexts, adjust_chunk_size] at h3
  have h4 := retryGo_all_errors parseNone oracleErr exTexts
    { glossary := [], translated := [], target_length := 1200, nCalls := 3,
      failedFile := some exTexts } (fun _ => rfl)
  norm_num [exTexts, adjust_chunk_size] at h4
  norm_num [translate_all, translateLoop, create_next_chunk, nextChunkGo, memKey,
    exTexts, exSt, prepare_request, relevant_terms, sortLenDesc, selGo, h3, h4]

/-- C3 (code bug): with a backend that always raises, after the one-fragment
chunk has exhausted its 3 retries and been recorded in the failed-translations
record, the driver loop re-selects the very same abandoned fragment: the next
`create_next_chunk` call returns a chunk containing it again, and a second loop
iteration sends three more backend calls for it (6 calls in total), instead of
never re-selecting an abandoned fragment. -/
theorem abandoned_fragment_reselected_code_bug :
    (translate_all parseNone oracleErr 1 exTexts exSt).failedFile = some exTexts ∧
      create_next_chunk (translate_all parseNone oracleErr 1 exTexts exSt) exTexts =
        some ({ terms_dictionary := [], texts := exTexts }, exTexts) ∧
      (['a'], ['x']) ∈ exTexts ∧
      (translate_all parseNone oracleErr 2 exTexts exSt).nCalls = 6 := by
  rw [st1_eq, st2_eq]
  exact ⟨rfl, by decide, by decide, rfl⟩

/-- C6: under any failure injection, `save_json` leaves the previously
persisted target file unchanged, removes the `.tmp` artifact, and logs the
failure (and never raises, being a total function); with no failure the target
is atomically replaced by the new data, again with no `.tmp` artifact left. -/
theorem save_json_atomic (data : List (Str × Str)) (fail : SaveFail)
    (leftover : Option (List (Str × Str))) (fs : FS)
    (h : fail ≠ SaveFail.noFail) :
    (save_json data fail leftover fs).target = fs.target ∧
      (save_json data fail leftover fs).logs = fs.logs + 1 ∧
      (save_json data fail leftover fs).temp = none ∧
      (save_json data SaveFail.noFail leftover fs).target = some data ∧
      (save_json data SaveFail.noFail leftover fs).temp = none := by
  cases fail with
  | writeFail => simp [save_json]
  | replaceFail => simp [save_json]
  | noFail => exact absurd rfl h

/-- C6 witness: a write failure leaving a partial temp artifact behind keeps
the previously persisted file intact and removes the artifact. -/
theorem save_json_atomic_witness :
    (save_json [(['n'], ['w'])] SaveFail.writeFail (some [(['n'], [])]) fs0).target =
        fs0.target ∧
      (save_json [(['n'], ['w'])] SaveFail.writeFail (some [(['n'], [])]) fs0).logs =
        fs0.logs + 1 ∧
      (save_json [(['n'], ['w'])] SaveFail.writeFail (some [(['n'], [])]) fs0).temp = none ∧
      (save_json [(['n'], ['w'])] SaveFail.noFail (some [(['n'], [])]) fs0).target =
        some [(['n'], ['w'])] ∧
      (save_json [(['n'], ['w'])] SaveFail.noFail (some [(['n'], [])]) fs0).temp = none :=
  save_json_atomic [(['n'], ['w'])] SaveFail.writeFail (some [(['n'], [])]) fs0
    (by decide)

lemma insLen_perm (x : Str × Str) (l : List (Str × Str)) :
    List.Perm (insLen x l) (x :: l) := by
  induction l with
  | nil => simp [insLen]
  | cons y ys ih =>
    simp only [insLen]
    by_cases h : x.1.length < y.1.length
    · rw [if_pos h]
      exact (ih.cons y).trans (List.Perm.swap x y ys)
    · rw [if_neg h]

lemma sortLenDesc_perm (l : List (Str × Str)) : List.Perm (sortLenDesc l) l := by
  induction l with
  | nil => simp [sortLenDesc]
  | cons x xs ih =>
    simp only [sortLenDesc]
    exact (insLen_perm x (sortLenDesc xs)).trans (ih.cons x)

lemma insLen_sorted (x : Str × Str) (l : List (Str × Str))
    (h : List.Pairwise (fun a b : Str × Str => b.1.length ≤ a.1.length) l) :
    List.Pairwise (fun a b : Str × Str => b.1.length ≤ a.1.length) (insLen x l) := by
  induction l with
  | nil => simp [insLen]
  | cons y ys ih =>
    rw [List.pairwise_cons] at h
    obtain ⟨hy, hys⟩ := h
    simp only [insLen]
    by_cases hlt : x.1.length < y.1.length
    · rw [if_pos hlt, List.pairwise_cons]
      refine ⟨?_, ih hys⟩
      intro z hz
      rcases List.mem_cons.mp ((insLen_perm x ys).mem_iff.mp hz) with rfl | hzys
      · exact le_of_lt hlt
      · exact hy z hzys
    · rw [if_neg hlt, List.pairwise_cons]
      refine ⟨?_, List.pairwise_cons.mpr ⟨hy, hys⟩⟩
      intro z hz
      rcases List.mem_cons.mp hz with rfl | hzys
      · exact le_of_not_lt hlt
      · exact le_trans (hy z hzys) (le_of_not_lt hlt)

lemma sortLenDesc_sorted (l : List (Str × Str)) :
    List.Pairwise (fun a b : Str × Str => b.1.length ≤ a.1.length) (sortLenDesc l) := by
  induction l with
  | nil => simp [sortLenDesc]
  | cons x xs ih =>
    simp only [sortLenDesc]
    exact insLen_sorted x (sortLenDesc xs) ih

lemma selGo_subset (texts : List Str) :
    ∀ (l acc : List (Str × Str)) (p : Str × Str),
      p ∈ selGo texts l acc → p ∈ acc ∨ p ∈ l := by
  intro l
  induction l with
  | nil =>
    intro acc p hp
    simp only [selGo] at hp
    exact Or.inl hp
  | cons x rest ih =>
    intro acc p hp
    obtain ⟨t, v⟩ := x
    simp only [selGo] at hp
    by_cases h1 : occursB texts t = true
    · rw [if_pos h1] at hp
      by_cases h2 : is_subprocess t (acc.map Prod.fst) = true
      · rw [if_pos h2] at hp
        rcases ih acc p hp with h | h
        · exact Or.inl h
        · exact Or.inr (List.mem_cons_of_mem _ h)
      · rw [if_neg h2] at hp
        rcases ih _ p hp with h | h
        · rcases List.mem_append.mp h with h | h
          · exact Or.inl h
          · simp only [List.mem_singleton] at h
            subst h
            exact Or.inr (List.mem_cons_self _ _)
        · exact Or.inr (List.mem_cons_of_mem _ h)
    · rw [if_neg h1] at hp
      rcases ih acc p hp with h | h
      · exact Or.inl h
      · exact Or.inr (List.mem_cons_of_mem _ h)

lemma selGo_acc_sub (texts : List Str) :
    ∀ (l acc : List (Str × Str)) (p : Str × Str),
      p ∈ acc → p ∈ selGo texts l acc := by
  intro l
  induction l with
  | nil =>
    intro acc p hp
    simpa only [selGo] using hp
  | cons x rest ih =>
    intro acc p hp
    obtain ⟨t, v⟩ := x
    simp only [selGo]
    by_cases h1 : occursB texts t = true
    · rw [if_pos h1]
      by_cases h2 : is_subprocess t (acc.map Prod.fst) = true
      · rw [if_pos h2]
        exact ih acc p hp
      · rw [if_neg h2]
        exact ih _ p (List.mem_append_left _ hp)
    · rw [if_neg h1]
      exact ih acc p hp

lemma selGo_occurs (texts : List Str) :
    ∀ (l acc : List (Str × Str)),
      (∀ q ∈ acc, occursB texts q.1 = true) →
      ∀ p ∈ selGo texts l acc, occursB texts p.1 = true := by
  intro l
  induction l with
  | nil =>
    intro acc hacc p hp
    simp only [selGo] at hp
    exact hacc p hp
  | cons x rest ih =>
    intro acc hacc p hp
    obtain ⟨t, v⟩ := x
    simp only [selGo] at hp
    by_cases h1 : occursB texts t = true
    · rw [if_pos h1] at hp
      by_cases h2 : is_subprocess t (acc.map Prod.fst) = true
      · rw [if_pos h2] at hp
        exact ih acc hacc p hp
      · rw [if_neg h2] at hp
        refine ih _ ?_ p hp
        intro q hq
        rcases List.mem_append.mp hq with h | h
        · exact hacc q h
        · simp only [List.mem_singleton] at h
          subst h
          exact h1
    · rw [if_neg h1] at hp
      exact ih acc hacc p hp

lemma is_subprocess_iff (s : Str) (L : List Str) :
    is_subprocess s L = true ↔ ∃ l ∈ L, s ≠ l ∧ List.IsInfix s l := by
  simp [is_subprocess, subOf]

lemma occursB_iff (texts : List Str) (t : Str) :
    occursB texts t = true ↔ ∃ s ∈ texts, List.IsInfix t s := by
  simp [occursB, subOf]

lemma infix_eq_of_le_length {a b : Str} (h : List.IsInfix a b)
    (hlen : b.length ≤ a.length) : a = b :=
  h.sublist.eq_of_length (le_antisymm h.length_le hlen)

lemma selGo_noContain (texts : List Str) :
    ∀ (l acc : List (Str × Str)),
      List.Pairwise (fun a b : Str × Str => b.1.length ≤ a.1.length) l →
      (∀ p ∈ l, ∀ q ∈ acc, p.1.length ≤ q.1.length) →
      NoContain acc →
      NoContain (selGo texts l acc) := by
  intro l
  induction l with
  | nil =>
    intro acc _ _ hacc
    simpa only [selGo] using hacc
  | cons x rest ih =>
    intro acc hsort hcross hacc
    obtain ⟨t, v⟩ := x
    rw [List.pairwise_cons] at hsort
    obtain ⟨hhead, htail⟩ := hsort
    simp only [selGo]
    by_cases h1 : occursB texts t = true
    · rw [if_pos h1]
      by_cases h2 : is_subprocess t (acc.map Prod.fst) = true
      · rw [if_pos h2]
        exact ih acc htail (fun p hp q hq => hcross p (List.mem_cons_of_mem _ hp) q hq) hacc
      · rw [if_neg h2]
        refine ih _ htail ?_ ?_
        · intro p hp q hq
          rcases List.mem_append.mp hq with hq' | hq'
          · exact hcross p (List.mem_cons_of_mem _ hp) q hq'
          · simp only [List.mem_singleton] at hq'
            subst hq'
            exact hhead p hp
        · intro p hp q hq hne hinf
          rcases List.mem_append.mp hp with hp' | hp' <;>
            rcases List.mem_append.mp hq with hq' | hq'
          · exact hacc p hp' q hq' hne hinf
          · simp only [List.mem_singleton] at hq'
            subst hq'
            have hle : t.length ≤ p.1.length :=
              hcross (t, v) (List.mem_cons_self _ _) p hp'
            exact hne (infix_eq_of_le_length hinf hle)
          · simp only [List.mem_singleton] at hp'
            subst hp'
            apply h2
            rw [is_subprocess_iff]
            exact ⟨q.1, List.mem_map_of_mem Prod.fst hq', hne, hinf⟩
          · simp only [List.mem_singleton] at hp' hq'
            subst hp'
            subst hq'
            exact hne rfl
    · rw [if_neg h1]
      exact ih acc htail (fun p hp q hq => hcross p (List.mem_cons_of_mem _ hp) q hq) hacc

lemma selGo_complete (texts : List Str) :
    ∀ (l acc : List (Str × Str)),
      ((acc ++ l).map Prod.fst).Nodup →
      ∀ p ∈ l, occursB texts p.1 = true →
        p ∈ selGo texts l acc ∨
          ∃ q ∈ selGo texts l acc, p.1 ≠ q.1 ∧ List.IsInfix p.1 q.1 := by
  intro l
  induction l with
  | nil =>
    intro acc _ p hp
    exact absurd hp (List.not_mem_nil p)
  | cons x rest ih =>
    intro acc hnd p hp hocc
    obtain ⟨t, v⟩ := x
    simp only [selGo]
    rcases List.mem_cons.mp hp with rfl | hp'
    · have hocc' : occursB texts t = true := hocc
      rw [if_pos hocc']
      by_cases h2 : is_subprocess t (acc.map Prod.fst) = true
      · rw [if_pos h2]
        obtain ⟨w, hw, hne, hinf⟩ := (is_subprocess_iff t _).mp h2
        obtain ⟨q, hq, rfl⟩ := List.mem_map.mp hw
        right
        exact ⟨q, selGo_acc_sub texts rest acc q hq, hne, hinf⟩
      · rw [if_neg h2]
        left
        exact selGo_acc_sub texts rest _ _
          (List.mem_append_right _ (List.mem_singleton.mpr rfl))
    · by_cases h1 : occursB texts t = true
      · rw [if_pos h1]
        by_cases h2 : is_subprocess t (acc.map Prod.fst) = true
        · rw [if_pos h2]
          refine ih acc ?_ p hp' hocc
          refine hnd.sublist (List.Sublist.map Prod.fst ?_)
          exact (List.sublist_cons_self (t, v) rest).append_left acc
        · rw [if_neg h2]
          refine ih _ ?_ p hp' hocc
          simpa [List.append_assoc] using hnd
      · rw [if_neg h1]
        refine ih acc ?_ p hp' hocc
        refine hnd.sublist (List.Sublist.map Prod.fst ?_)
        exact (List.sublist_cons_self (t, v) rest).append_left acc

/-- C5: `prepare_request` selects exactly the glossary entries whose term
occurs as a literal substring of at least one chunk text and is not a proper
substring of another selected (longer, hence earlier-accepted) term; in
particular, on the glossary 刀法 ↦ 검법, 快刀法 ↦ 쾌검법 and a text containing
快刀法, exactly the entry 快刀法 ↦ 쾌검법 is selected and 刀法 is suppressed. -/
theorem term_selector_exact (gl : List (Str × Str)) (texts : List Str)
    (p : Str × Str) (hnd : (gl.map Prod.fst).Nodup) :
    (p ∈ relevant_terms gl texts ↔
      p ∈ gl ∧ (∃ s ∈ texts, List.IsInfix p.1 s) ∧
        ∀ q ∈ relevant_terms gl texts, p.1 ≠ q.1 → ¬ List.IsInfix p.1 q.1) ∧
    relevant_terms glossEx [textEx] = [(['快', '刀', '法'], ['쾌', '검', '법'])] := by
  simp only [relevant_terms]
  constructor
  · constructor
    · intro hmem
      refine ⟨?_, ?_, ?_⟩
      · rcases selGo_subset texts (sortLenDesc gl) [] p hmem with h | h
        · exact absurd h (List.not_mem_nil p)
        · exact (sortLenDesc_perm gl).mem_iff.mp h
      · refine (occursB_iff texts p.1).mp ?_
        refine selGo_occurs texts (sortLenDesc gl) [] ?_ p hmem
        intro q hq
        exact absurd hq (List.not_mem_nil q)
      · intro q hq hne hinf
        have hnc := selGo_noContain texts (sortLenDesc gl) [] (sortLenDesc_sorted gl)
          (fun a _ b hb => absurd hb (List.not_mem_nil b))
          (fun a ha => absurd ha (List.not_mem_nil a))
        exact hnc p hmem q hq hne hinf
    · rintro ⟨hgl, hocc, hnocon⟩
      have hp' : p ∈ sortLenDesc gl := (sortLenDesc_perm gl).mem_iff.mpr hgl
      have hnd' : ((([] : List (Str × Str)) ++ sortLenDesc gl).map Prod.fst).Nodup := by
        simp only [List.nil_append]
        exact (((sortLenDesc_perm gl).map Prod.fst).nodup_iff).mpr hnd
      rcases selGo_complete texts (sortLenDesc gl) [] hnd' p hp'
        ((occursB_iff texts p.1).mpr hocc) with h | ⟨q, hq, hne, hinf⟩
      · exact h
      · exact absurd hinf (hnocon q hq hne)
  · decide

/-- C5 witness: the characterization and the concrete suppression example,
instantiated at the entry 快刀法 ↦ 쾌검법 of the example glossary. -/
theorem term_selector_exact_witness :
    ((['快', '刀', '法'], ['쾌', '검', '법']) ∈ relevant_terms glossEx [textEx] ↔
      (['快', '刀', '法'], ['쾌', '검', '법']) ∈ glossEx ∧
        (∃ s ∈ [textEx], List.IsInfix ['快', '刀', '法'] s) ∧
        ∀ q ∈ relevant_terms glossEx [textEx],
          ['快', '刀', '法'] ≠ q.1 → ¬ List.IsInfix ['快', '刀', '法'] q.1) ∧
    relevant_terms glossEx [textEx] = [(['快', '刀', '法'], ['쾌', '검', '법'])] :=
  term_selector_exact glossEx [textEx] (['快', '刀', '法'], ['쾌', '검', '법'])
    (by decide)

end WarmSnow
